import Mathlib

/-
Verification of the tokenizer and renderer of ashtonc/json-pretty-printer
(src/json-pretty-printer.go), shallowly embedded in Lean 4.

Modelling conventions:
- The Go byte slice `jsonFile []byte` is modelled as `List Char` (all inputs
  of interest are ASCII, where Go's byte-wise processing coincides with
  char-wise processing).
- A Go panic caused by an out-of-bounds slice index is modelled by `none`:
  every place the Go code indexes `jsonFile[j]` is translated so that the
  function returns `none` exactly when `j` would be out of bounds.
- Go's main loop `for i := 0; i < len(jsonFile); i += tokenLength` advances
  by `tokenLength ≥ 1` characters per iteration (`tokenLength` is
  initialised to 1 and only incremented), so the loop runs at most
  `len(jsonFile)` iterations.  The loop is modelled with a fuel parameter
  initially set to `jsonFile.length`; `getTokensFuel_fuel_irrelevant` below
  shows any fuel ≥ the remaining length gives the same result, so the fuel
  never runs out.
-/

namespace JPP

/- Token kind constants, verbatim from the Go source. -/

def ObjectOpen : Nat := 11
def ObjectClose : Nat := 12
def ArrayOpen : Nat := 13
def ArrayClose : Nat := 14
def DelimiterPair : Nat := 21
def DelimiterMember : Nat := 22
def StringRegular : Nat := 31
def StringEscaped : Nat := 32
def StringClose : Nat := 33
def Number : Nat := 41
def LiteralBoolTrue : Nat := 51
def LiteralBoolFalse : Nat := 52
def LiteralNull : Nat := 53

/-- Token carries a kind (which is an ID) and the content of the token. -/
structure Token where
  content : List Char
  kind : Nat
deriving DecidableEq

/-- The `validNextNumCharacter` closure inside `getTokens`: true if the
character can continue a number. -/
def validNextNumCharacter (c : Char) : Bool :=
  c == '-' || c == '+' || c == 'e' || c == 'E' || c == '.' ||
  c == '0' || c == '1' || c == '2' || c == '3' || c == '4' ||
  c == '5' || c == '6' || c == '7' || c == '8' || c == '9'

/-- The characters of the Go switch case starting a `Number` token:
`-` or a digit. -/
def isNumberStart (c : Char) : Bool :=
  c == '-' || c == '0' || c == '1' || c == '2' || c == '3' || c == '4' ||
  c == '5' || c == '6' || c == '7' || c == '8' || c == '9'

/-- The `isStringRegular` loop of `getTokens`: starting at `jsonFile[i+1]`,
append characters to the token until a `"` (consumed, ends the string) or a
`\` (not consumed).  Returns the appended characters together with how many
characters were consumed; `none` models the out-of-bounds read
`jsonFile[j]` when the input ends before the loop finishes. -/
def consumeStringRun : List Char → Option (List Char × Nat)
  | [] => none
  | c :: rest =>
    if c = '"' then some ([c], 1)
    else if c = '\\' then some ([], 0)
    else
      match consumeStringRun rest with
      | none => none
      | some (cs, n) => some (c :: cs, n + 1)

/-- The `isNumber` loop of `getTokens`: starting at `jsonFile[i+1]`, append
characters while `validNextNumCharacter`; the first invalid character is
read but not consumed.  `none` models the out-of-bounds read when the input
ends while the number is still being consumed (the loop always reads
`jsonFile[j]` before it can stop). -/
def consumeNumberRun : List Char → Option (List Char × Nat)
  | [] => none
  | c :: rest =>
    if validNextNumCharacter c then
      match consumeNumberRun rest with
      | none => none
      | some (cs, n) => some (c :: cs, n + 1)
    else some ([], 0)

/-- The previous-token check at the top of the `getTokens` loop body.
Returns `(isString, tokenKind)` where `isString` says the current character
is part of an in-progress string and `tokenKind` is the pre-set kind
(`StringClose` when the previous token was `StringEscaped` and the current
character is `"`; otherwise the default 0).  The Go code reads the last
byte of the previous token's content unconditionally, so an empty previous
content would fault: that is the `none` case. -/
def prevState (c : Char) : Option Token → Option (Bool × Nat)
  | none => some (false, 0)
  | some t =>
    match t.content.getLast? with
    | none => none
    | some pc =>
      if t.kind = StringRegular then
        some (pc != '"' || t.content.length == 1, 0)
      else if t.kind = StringEscaped then
        some (true, if c = '"' then StringClose else 0)
      else some (false, 0)

/-- One iteration of the `getTokens` loop when `isString` is true: the
current character either closes the string, starts an escape sequence, or
starts/extends a plain run.  The returned `Nat` is `tokenLength - 1`, the
number of characters consumed beyond the current one. -/
def stepInString (c : Char) (rest : List Char) (kind0 : Nat) :
    Option (Option Token × Nat) :=
  if c = '"' then
    if kind0 = StringClose then some (some ⟨[c], StringClose⟩, 0)
    else
      match consumeStringRun rest with
      | none => none
      | some (cs, n) => some (some ⟨c :: cs, StringRegular⟩, n)
  else if c = '\\' then
    match rest with
    | [] => none
    | d :: _ =>
      if d = 'u' then
        if rest.length < 5 then none
        else some (some ⟨c :: rest.take 5, StringEscaped⟩, 5)
      else some (some ⟨[c, d], StringEscaped⟩, 1)
  else
    match consumeStringRun rest with
    | none => none
    | some (cs, n) => some (some ⟨c :: cs, StringRegular⟩, n)

/-- One iteration of the `getTokens` loop when `isString` is false: the
single-character switch of the Go code.  `(none, 0)` is the skipped
(whitespace / unrecognized) case.  The returned `Nat` is
`tokenLength - 1`. -/
def stepFresh (c : Char) (rest : List Char) : Option (Option Token × Nat) :=
  if c = '{' then some (some ⟨[c], ObjectOpen⟩, 0)
  else if c = '}' then some (some ⟨[c], ObjectClose⟩, 0)
  else if c = '[' then some (some ⟨[c], ArrayOpen⟩, 0)
  else if c = ']' then some (some ⟨[c], ArrayClose⟩, 0)
  else if c = ':' then some (some ⟨[c], DelimiterPair⟩, 0)
  else if c = ',' then some (some ⟨[c], DelimiterMember⟩, 0)
  else if c = '"' then
    match consumeStringRun rest with
    | none => none
    | some (cs, n) => some (some ⟨c :: cs, StringRegular⟩, n)
  else if isNumberStart c then
    match consumeNumberRun rest with
    | none => none
    | some (cs, n) => some (some ⟨c :: cs, Number⟩, n)
  else if c = 't' then some (some ⟨['t', 'r', 'u', 'e'], LiteralBoolTrue⟩, 3)
  else if c = 'f' then some (some ⟨['f', 'a', 'l', 's', 'e'], LiteralBoolFalse⟩, 4)
  else if c = 'n' then some (some ⟨['n', 'u', 'l', 'l'], LiteralNull⟩, 3)
  else some (none, 0)

/-- One full iteration of the `getTokens` loop body at the current
character `c`, with `rest` the input after `c` and `prev` the previously
emitted token (if any). -/
def step (c : Char) (rest : List Char) (prev : Option Token) :
    Option (Option Token × Nat) :=
  match prevState c prev with
  | none => none
  | some (isString, kind0) =>
    if isString then stepInString c rest kind0 else stepFresh c rest

/-- The `getTokens` loop.  Each iteration consumes at least one character,
so `fuel = remaining length` never runs out (see
`getTokensFuel_fuel_irrelevant`). -/
def getTokensFuel : Nat → List Char → List Token → Option (List Token)
  | _, [], acc => some acc
  | 0, _ :: _, _ => none
  | fuel + 1, c :: rest, acc =>
    match step c rest acc.getLast? with
    | none => none
    | some (emitted, extra) =>
      getTokensFuel fuel (rest.drop extra) (acc ++ emitted.toList)

/-- getTokens returns an array of tokens from the file that is passed in;
`none` models a Go panic from an out-of-bounds index. -/
def getTokens (jsonFile : List Char) : Option (List Token) :=
  getTokensFuel jsonFile.length jsonFile []

/- Renderer (printTokens / styleHTML / addColor / addWhiteSpace /
escapeString), translated from the Go source.  The two pieces of mutable
state threaded by pointer in Go (`indentationLevel : int`,
`isToIndent : bool`) are passed and returned explicitly. -/

/-- The apostrophe character (written by code point to keep source plain). -/
def aposChar : Char := Char.ofNat 39

/-- One iteration of the `escapeString` loop: the replacement text for a
single character. -/
def escChar (c : Char) : List Char :=
  if c = '<' then "&lt;".data
  else if c = '>' then "&gt;".data
  else if c = '&' then "&amp;".data
  else if c = '"' then "&quot;".data
  else if c = aposChar then ['&', 'a', 'p', 'o', 's', ';']
  else [c]

/-- The full `escapeString` loop over a character list. -/
def escList : List Char → List Char
  | [] => []
  | c :: cs => escChar c ++ escList cs

/-- escapeString replaces all characters that cannot be displayed properly
in HTML with HTML symbols (using their entity number). -/
def escapeString (token : Token) : String :=
  String.mk (escList token.content)

/-- addColor outputs the span tags necessary to color each token. -/
def addColor (token : Token) : String × String :=
  let color : Option String :=
    if token.kind = ObjectOpen ∨ token.kind = ObjectClose then some "#D75F5F"
    else if token.kind = ArrayOpen ∨ token.kind = ArrayClose then some "#10A778"
    else if token.kind = DelimiterPair then some "#005F87"
    else if token.kind = DelimiterMember then some "#CCCCCC"
    else if token.kind = StringRegular ∨ token.kind = StringClose then some "#424242"
    else if token.kind = StringEscaped then some "#C30771"
    else if token.kind = Number then some "#6855DE"
    else if token.kind = LiteralBoolTrue ∨ token.kind = LiteralBoolFalse ∨
            token.kind = LiteralNull then some "#20A5BA"
    else none
  match color with
  | some col => ("<span style=\"color:" ++ col ++ "\">", "</span>")
  | none => ("", "")

/-- addWhiteSpace adds white space before and after the token to ensure
consistent styling.  Returns `((whiteSpacePre, whiteSpacePost),
(indentationLevel, isToIndent))` with the updated state.  The Go loop
`for i := 1; i < *indentationLevel; i++` builds `max (level - 1) 0` tab
characters. -/
def addWhiteSpace (token : Token) (indentationLevel : Int) (isToIndent : Bool) :
    (String × String) × Int × Bool :=
  let indentString : String := String.mk (List.replicate (indentationLevel - 1).toNat '\t')
  let pendingPre : String := if isToIndent then indentString ++ "\t" else ""
  if token.kind = ObjectOpen ∨ token.kind = ArrayOpen then
    ((pendingPre, "\n"), (indentationLevel + 1, true))
  else if token.kind = ObjectClose ∨ token.kind = ArrayClose then
    (("\n" ++ indentString, ""), (indentationLevel - 1, false))
  else if token.kind = DelimiterPair then
    ((" ", " "), (indentationLevel, false))
  else if token.kind = DelimiterMember then
    ((pendingPre, "\n"), (indentationLevel, true))
  else
    ((pendingPre, ""), (indentationLevel, false))

/-- styleHTML combines color, whitespace and escaping for one token,
returning the rendered text and the updated indentation state. -/
def styleHTML (token : Token) (indentationLevel : Int) (isToIndent : Bool) :
    String × Int × Bool :=
  let colorPair := addColor token
  let wsResult := addWhiteSpace token indentationLevel isToIndent
  (wsResult.1.1 ++ colorPair.1 ++ escapeString token ++ colorPair.2 ++ wsResult.1.2,
   wsResult.2)

/-- The loop of `printTokens`, carrying the indentation state. -/
def printTokensAux : List Token → Int → Bool → String
  | [], _, _ => ""
  | t :: ts, level, ind =>
    let r := styleHTML t level ind
    r.1 ++ printTokensAux ts r.2.1 r.2.2

/-- printTokens iterates the array of tokens and prints them (modelled as
returning the printed text), tracking indentation at this level. -/
def printTokens (tokenArray : List Token) : String :=
  printTokensAux tokenArray 0 false

/- A lexical decomposition of well-formed input, used to state the spec's
round-trip property ("concatenating token contents reconstructs the input
with whitespace outside strings and non-token characters removed").
Modelled from the spec's token shapes: a string literal is a quote, a list
of items (plain characters, 2-character escapes, 6-character unicode
escapes) and a closing quote; a number is a start character followed by
continuation characters; literals carry their canonical text; every other
character (whitespace or junk) is skipped. -/

/-- One item of a string literal's body. -/
inductive StrItem where
  | plain (c : Char)
  | esc (d : Char)
  | uesc (a b e f : Char)
deriving DecidableEq

/-- The characters of one string-body item. -/
def strItemSer : StrItem → List Char
  | .plain c => [c]
  | .esc d => ['\\', d]
  | .uesc a b e f => ['\\', 'u', a, b, e, f]

/-- Well-formedness of one string-body item: a plain character is neither
a quote nor a backslash; a short escape does not start a unicode escape. -/
def strItemOk : StrItem → Bool
  | .plain c => !(c == '"') && !(c == '\\')
  | .esc d => !(d == 'u')
  | .uesc _ _ _ _ => true

/-- The characters of a string body. -/
def itemsSer (items : List StrItem) : List Char :=
  (items.map strItemSer).flatten

/-- One lexeme of a lexically well-formed input. -/
inductive Lexeme where
  | structural (c : Char)
  | str (items : List StrItem)
  | num (c : Char) (cs : List Char)
  | litTrue
  | litFalse
  | litNull
  | skip (c : Char)
deriving DecidableEq

/-- The characters of one lexeme. -/
def lexSer : Lexeme → List Char
  | .structural c => [c]
  | .str items => '"' :: itemsSer items ++ ['"']
  | .num c cs => c :: cs
  | .litTrue => ['t', 'r', 'u', 'e']
  | .litFalse => ['f', 'a', 'l', 's', 'e']
  | .litNull => ['n', 'u', 'l', 'l']
  | .skip c => [c]

/-- Well-formedness of one lexeme. A skipped character must not start any
token. -/
def lexOk : Lexeme → Bool
  | .structural c =>
      c == '{' || c == '}' || c == '[' || c == ']' || c == ':' || c == ','
  | .str items => items.all strItemOk
  | .num c cs => isNumberStart c && cs.all validNextNumCharacter
  | .litTrue => true
  | .litFalse => true
  | .litNull => true
  | .skip c =>
      !(c == '{') && !(c == '}') && !(c == '[') && !(c == ']') &&
      !(c == ':') && !(c == ',') && !(c == '"') && !(isNumberStart c) &&
      !(c == 't') && !(c == 'f') && !(c == 'n')

/-- Is this lexeme a number? -/
def numLex : Lexeme → Bool
  | .num _ _ => true
  | _ => false

/-- The first character of this lexeme stops an in-progress number run. -/
def firstCharStopsNum (lx : Lexeme) : Bool :=
  match lexSer lx with
  | [] => false
  | e :: _ => !validNextNumCharacter e

/-- Separation condition on a lexeme list: a number lexeme is never last
and is always followed by a lexeme whose first character cannot continue
the number (otherwise the tokenizer would either absorb that character
into the number or read out of bounds). -/
def SepOk : List Lexeme → Bool
  | [] => true
  | [lx] => !numLex lx
  | lx :: lx2 :: rest => (!numLex lx || firstCharStopsNum lx2) && SepOk (lx2 :: rest)

/-- The characters of a lexeme list. -/
def lexListSer (lxs : List Lexeme) : List Char :=
  (lxs.map lexSer).flatten

/-- The characters of a lexeme list that the tokenizer keeps: everything
except skipped characters. -/
def lexKept : Lexeme → List Char
  | .skip _ => []
  | lx => lexSer lx

/-- The kept characters of a lexeme list. -/
def keptSer (lxs : List Lexeme) : List Char :=
  (lxs.map lexKept).flatten

/-- Concatenation of the content fields of a token list. -/
def contentsConcat (ts : List Token) : List Char :=
  (ts.map Token.content).flatten

/-- A token after which the tokenizer is not inside a string: its content
is nonempty, it is not an escape token, and if it is a `StringRegular` it
ends in a quote and is not the single opening quote. -/
def neutralToken (t : Token) : Prop :=
  t.content ≠ [] ∧ t.kind ≠ StringEscaped ∧
    (t.kind = StringRegular → t.content.getLast? = some '"' ∧ t.content.length ≠ 1)

/-- The last token of the accumulator (if any) is neutral. -/
def NeutralLast (acc : List Token) : Prop :=
  ∀ t, acc.getLast? = some t → neutralToken t

/-- Split a string body into its maximal leading run of plain characters
and the remaining items (which start with an escape if nonempty). -/
def splitPlains : List StrItem → List Char × List StrItem
  | [] => ([], [])
  | StrItem.plain c :: k =>
    let r := splitPlains k
    (c :: r.1, r.2)
  | it :: k => ([], it :: k)

/-- The head of this item list is an escape item. -/
def headIsEsc : List StrItem → Prop
  | StrItem.esc _ :: _ => True
  | StrItem.uesc _ _ _ _ :: _ => True
  | _ => False

/-- What must hold of the characters following a lexeme so that the
tokenizer does not run past it: only a number lexeme constrains them (the
number loop reads the character right after the number). -/
def FollowOk (lx : Lexeme) (rest : List Char) : Prop :=
  numLex lx = true →
    ∃ e tail, rest = e :: tail ∧ validNextNumCharacter e = false

/- Helper lemmas about the consumption loops. -/

/-- A plain character: neither a quote nor a backslash. -/
def plainChar (c : Char) : Prop := c ≠ '"' ∧ c ≠ '\\'

theorem consumeStringRun_plain_quote (ps : List Char) (rest : List Char)
    (h : ∀ p ∈ ps, plainChar p) :
    consumeStringRun (ps ++ '"' :: rest) = some (ps ++ ['"'], ps.length + 1) := by
  induction ps with
  | nil => simp [consumeStringRun]
  | cons p ps ih =>
    obtain ⟨h1, h2⟩ := h p (by simp)
    have ih2 := ih (fun q hq => h q (by simp [hq]))
    simp [consumeStringRun, h1, h2, ih2]

theorem consumeStringRun_plain_backslash (ps : List Char) (rest : List Char)
    (h : ∀ p ∈ ps, plainChar p) :
    consumeStringRun (ps ++ '\\' :: rest) = some (ps, ps.length) := by
  induction ps with
  | nil => simp [consumeStringRun]
  | cons p ps ih =>
    obtain ⟨h1, h2⟩ := h p (by simp)
    have ih2 := ih (fun q hq => h q (by simp [hq]))
    simp [consumeStringRun, h1, h2, ih2]

theorem consumeNumberRun_valid_stop (cs : List Char) (e : Char) (rest : List Char)
    (h : ∀ d ∈ cs, validNextNumCharacter d = true)
    (he : validNextNumCharacter e = false) :
    consumeNumberRun (cs ++ e :: rest) = some (cs, cs.length) := by
  induction cs with
  | nil => simp [consumeNumberRun, he]
  | cons d cs ih =>
    have hd := h d (by simp)
    have ih2 := ih (fun q hq => h q (by simp [hq]))
    simp [consumeNumberRun, hd, ih2]

theorem prevState_neutral (c : Char) (t : Token) (h : neutralToken t) :
    prevState c (some t) = some (false, 0) := by
  obtain ⟨hne, hk, hsr⟩ := h
  simp only [prevState]
  cases hl : t.content.getLast? with
  | none =>
    exact absurd (List.getLast?_eq_none_iff.mp hl) hne
  | some pc =>
    by_cases h31 : t.kind = StringRegular
    · obtain ⟨hlast, hlen⟩ := hsr h31
      rw [hl] at hlast
      obtain rfl : pc = '"' := Option.some.inj hlast
      simp [h31, hlen]
    · simp [h31, hk]

theorem prevState_neutralLast (c : Char) (acc : List Token) (h : NeutralLast acc) :
    prevState c acc.getLast? = some (false, 0) := by
  cases hl : acc.getLast? with
  | none => rfl
  | some t => exact prevState_neutral c t (h t hl)

theorem step_neutral (c : Char) (rest : List Char) (acc : List Token)
    (h : NeutralLast acc) :
    step c rest acc.getLast? = stepFresh c rest := by
  simp [step, prevState_neutralLast c acc h]

theorem prevState_escaped (c : Char) (t : Token)
    (hk : t.kind = StringEscaped) (hne : t.content ≠ []) :
    prevState c (some t) = some (true, if c = '"' then StringClose else 0) := by
  simp only [prevState]
  cases hl : t.content.getLast? with
  | none => exact absurd (List.getLast?_eq_none_iff.mp hl) hne
  | some pc => simp [hk, StringEscaped, StringRegular]

theorem prevState_srCont (c : Char) (t : Token) (pc : Char)
    (hk : t.kind = StringRegular) (hl : t.content.getLast? = some pc)
    (hcont : pc ≠ '"' ∨ t.content.length = 1) :
    prevState c (some t) = some (true, 0) := by
  simp only [prevState, hl, hk, if_true]
  rcases hcont with h | h
  · simp [h]
  · simp [h]

/- Fuel irrelevance: any fuel at least the remaining length gives the same
result, so the initial fuel `jsonFile.length` never runs out. -/

theorem getTokensFuel_fuel_irrelevant :
    ∀ (n m : Nat) (s : List Char) (acc : List Token),
      s.length ≤ n → s.length ≤ m →
      getTokensFuel n s acc = getTokensFuel m s acc := by
  intro n
  induction n with
  | zero =>
    intro m s acc hn _
    cases s with
    | nil => cases m <;> rfl
    | cons c rest => simp at hn
  | succ n ih =>
    intro m s acc hn hm
    cases s with
    | nil => cases m <;> rfl
    | cons c rest =>
      cases m with
      | zero => simp at hm
      | succ m =>
        simp only [getTokensFuel]
        cases hstep : step c rest acc.getLast? with
        | none => rfl
        | some r =>
          obtain ⟨emitted, extra⟩ := r
          apply ih
          · calc (rest.drop extra).length ≤ rest.length := by
                  simp [List.length_drop]
              _ ≤ n := by simpa using hn
          · calc (rest.drop extra).length ≤ rest.length := by
                  simp [List.length_drop]
              _ ≤ m := by simpa using hm

/-- Unrolling one iteration of the tokenizer loop. -/
theorem getTokensFuel_step (n : Nat) (c : Char) (rest : List Char)
    (acc : List Token) (emitted : Option Token) (extra : Nat)
    (hstep : step c rest acc.getLast? = some (emitted, extra)) :
    getTokensFuel (n + 1) (c :: rest) acc =
      getTokensFuel n (rest.drop extra) (acc ++ emitted.toList) := by
  simp [getTokensFuel, hstep]

theorem NeutralLast_nil : NeutralLast [] := by
  intro t h
  simp at h

theorem NeutralLast_concat (acc : List Token) (t : Token) (h : neutralToken t) :
    NeutralLast (acc ++ [t]) := by
  intro u hu
  rw [List.getLast?_concat] at hu
  obtain rfl := Option.some.inj hu
  exact h

/-- The last element of a nonempty cons list is either the head (and the
tail is empty) or a member of the tail. -/
theorem getLast?_cons_cases (c : Char) (ps : List Char) :
    ∃ pc, (c :: ps).getLast? = some pc ∧ ((pc = c ∧ ps = []) ∨ pc ∈ ps) := by
  induction ps generalizing c with
  | nil => exact ⟨c, rfl, Or.inl ⟨rfl, rfl⟩⟩
  | cons d ds ih =>
    obtain ⟨pc, h1, h2⟩ := ih d
    refine ⟨pc, ?_, ?_⟩
    · rw [List.getLast?_cons_cons]
      exact h1
    · rcases h2 with ⟨rfl, rfl⟩ | h2 <;> simp [*]

/-- Splitting a string body into leading plain characters and the rest. -/
theorem splitPlains_spec (k : List StrItem) :
    itemsSer k = (splitPlains k).1 ++ itemsSer (splitPlains k).2 ∧
    (∀ q ∈ (splitPlains k).1, StrItem.plain q ∈ k) ∧
    ((splitPlains k).2 = [] ∨ headIsEsc (splitPlains k).2) ∧
    (splitPlains k).2.length ≤ k.length ∧
    (∀ it ∈ (splitPlains k).2, it ∈ k) := by
  induction k with
  | nil => simp [splitPlains, itemsSer]
  | cons it k ih =>
    cases it with
    | plain c =>
      obtain ⟨h1, h2, h3, h4, h5⟩ := ih
      refine ⟨?_, ?_, ?_, ?_, ?_⟩
      · simp [splitPlains, itemsSer, strItemSer] at h1 ⊢
        exact h1
      · intro q hq
        simp [splitPlains] at hq
        rcases hq with rfl | hq
        · simp
        · simp [h2 q hq]
      · simpa [splitPlains] using h3
      · simp [splitPlains]
        exact Nat.le_succ_of_le h4
      · intro u hu
        simp [splitPlains] at hu
        simp [h5 u hu]
    | esc d =>
      refine ⟨by simp [splitPlains], by simp [splitPlains], ?_, by simp [splitPlains], ?_⟩
      · right
        simp [splitPlains, headIsEsc]
      · intro u hu
        simpa [splitPlains] using hu
    | uesc a b e f =>
      refine ⟨by simp [splitPlains], by simp [splitPlains], ?_, by simp [splitPlains], ?_⟩
      · right
        simp [splitPlains, headIsEsc]
      · intro u hu
        simpa [splitPlains] using hu

/-- A body whose head is an escape item serializes to a backslash-headed
character list. -/
theorem headIsEsc_ser (k : List StrItem) (h : headIsEsc k) :
    ∃ tail, itemsSer k = '\\' :: tail := by
  cases k with
  | nil => cases h
  | cons it k =>
    cases it with
    | plain c => cases h
    | esc d => exact ⟨d :: itemsSer k, by simp [itemsSer, strItemSer]⟩
    | uesc a b e f => exact ⟨'u' :: a :: b :: e :: f :: itemsSer k, by simp [itemsSer, strItemSer]⟩

theorem contentsConcat_nil : contentsConcat [] = [] := rfl

theorem contentsConcat_cons (t : Token) (ts : List Token) :
    contentsConcat (t :: ts) = t.content ++ contentsConcat ts := by
  simp [contentsConcat]

theorem contentsConcat_append (a b : List Token) :
    contentsConcat (a ++ b) = contentsConcat a ++ contentsConcat b := by
  simp [contentsConcat]

/-- Processing one fresh token that consumes `extra` extra characters and
emits a neutral token. -/
theorem tokenizeSimpleToken (c : Char) (rest0 rest : List Char) (tok : Token)
    (extra : Nat) (acc : List Token) (hacc : NeutralLast acc)
    (hstep : stepFresh c rest0 = some (some tok, extra))
    (hdrop : rest0.drop extra = rest)
    (hneu : neutralToken tok) :
    ∀ n, (c :: rest0).length ≤ n →
      ∃ toks, (∀ m, rest.length ≤ m →
          getTokensFuel n (c :: rest0) acc = getTokensFuel m rest (acc ++ toks)) ∧
        contentsConcat toks = tok.content ∧ NeutralLast (acc ++ toks) := by
  intro n hn
  cases n with
  | zero => simp at hn
  | succ n =>
    refine ⟨[tok], ?_, by simp [contentsConcat], NeutralLast_concat acc tok hneu⟩
    intro m hm
    rw [getTokensFuel_step n c rest0 acc (some tok) extra
      (by rw [step_neutral c rest0 acc hacc]; exact hstep)]
    rw [hdrop]
    apply getTokensFuel_fuel_irrelevant
    · have h1 : rest.length ≤ rest0.length := by
        rw [← hdrop]; simp [List.length_drop]
      have h2 : rest0.length + 1 ≤ n + 1 := by simpa using hn
      omega
    · exact hm

/-- Processing the closing quote of a string that ends right after an
escape sequence: a standalone `StringClose` token. -/
theorem tokenizeStringClose (rest : List Char) (acc : List Token) (t : Token)
    (hlast : acc.getLast? = some t) (hk : t.kind = StringEscaped)
    (hne : t.content ≠ []) :
    ∀ n, ('"' :: rest).length ≤ n →
      ∃ toks, (∀ m, rest.length ≤ m →
          getTokensFuel n ('"' :: rest) acc = getTokensFuel m rest (acc ++ toks)) ∧
        contentsConcat toks = ['"'] ∧ NeutralLast (acc ++ toks) := by
  intro n hn
  cases n with
  | zero => simp at hn
  | succ n =>
    refine ⟨[⟨['"'], StringClose⟩], ?_, by simp [contentsConcat],
      NeutralLast_concat acc _ ⟨by simp, by decide, by decide⟩⟩
    intro m hm
    have hstep : step '"' rest acc.getLast? = some (some ⟨['"'], StringClose⟩, 0) := by
      rw [hlast]
      simp [step, prevState_escaped '"' t hk hne, stepInString]
    rw [getTokensFuel_step n '"' rest acc _ 0 hstep]
    simp only [List.drop_zero, Option.toList_some]
    apply getTokensFuel_fuel_irrelevant
    · have h2 : rest.length + 1 ≤ n + 1 := by simpa using hn
      omega
    · exact hm

/-- Tokenizing the remainder of a string body followed by the closing
quote, entered either right after an escape token, or right after a
plain-run token when the next item is an escape. -/
theorem tokenizeStringBody :
    ∀ (bound : Nat) (items : List StrItem), items.length ≤ bound →
      (∀ it ∈ items, strItemOk it = true) →
      ∀ (rest : List Char) (acc : List Token) (t : Token),
        acc.getLast? = some t →
        ((t.kind = StringEscaped ∧ t.content ≠ []) ∨
         (t.kind = StringRegular ∧
           (∃ pc, t.content.getLast? = some pc ∧ (pc ≠ '"' ∨ t.content.length = 1)) ∧
           headIsEsc items)) →
        ∀ n, (itemsSer items ++ '"' :: rest).length ≤ n →
          ∃ toks,
            (∀ m, rest.length ≤ m →
              getTokensFuel n (itemsSer items ++ '"' :: rest) acc =
                getTokensFuel m rest (acc ++ toks)) ∧
            contentsConcat toks = itemsSer items ++ ['"'] ∧
            NeutralLast (acc ++ toks) := by
  intro bound
  induction bound with
  | zero =>
    intro items hlen hok rest acc t hlast hstate n hn
    obtain rfl : items = [] := List.length_eq_zero.mp (Nat.le_zero.mp hlen)
    rcases hstate with ⟨hk, hne⟩ | ⟨_, _, habs⟩
    · simpa [itemsSer] using
        tokenizeStringClose rest acc t hlast hk hne n (by simpa [itemsSer] using hn)
    · simp [headIsEsc] at habs
  | succ bound ih =>
    intro items hlen hok rest acc t hlast hstate n hn
    cases items with
    | nil =>
      rcases hstate with ⟨hk, hne⟩ | ⟨_, _, habs⟩
      · simpa [itemsSer] using
          tokenizeStringClose rest acc t hlast hk hne n (by simpa [itemsSer] using hn)
      · simp [headIsEsc] at habs
    | cons it k =>
      have hokk : ∀ q ∈ k, strItemOk q = true := fun q hq => hok q (by simp [hq])
      have hlenk : k.length ≤ bound := by simp at hlen; omega
      cases it with
      | esc d =>
        have hd : d ≠ 'u' := by
          have h0 := hok (StrItem.esc d) (by simp)
          simpa [strItemOk] using h0
        have hprev : prevState '\\' (some t) = some (true, 0) := by
          rcases hstate with ⟨hk, hne⟩ | ⟨hk, ⟨pc, hpc, hcont⟩, _⟩
          · rw [prevState_escaped '\\' t hk hne]
            simp
          · exact prevState_srCont '\\' t pc hk hpc hcont
        have hser : itemsSer (StrItem.esc d :: k) ++ '"' :: rest =
            '\\' :: d :: (itemsSer k ++ '"' :: rest) := by
          simp [itemsSer, strItemSer]
        rw [hser] at hn ⊢
        cases n with
        | zero => simp at hn
        | succ n =>
          have hstep : step '\\' (d :: (itemsSer k ++ '"' :: rest)) acc.getLast? =
              some (some ⟨['\\', d], StringEscaped⟩, 1) := by
            rw [hlast]
            simp [step, hprev, stepInString, hd]
          obtain ⟨toks2, hEq2, hCat2, hNeu2⟩ :=
            ih k hlenk hokk rest (acc ++ [⟨['\\', d], StringEscaped⟩])
              ⟨['\\', d], StringEscaped⟩ (List.getLast?_concat _)
              (Or.inl ⟨rfl, by simp⟩)
              n (by simp at hn ⊢; omega)
          refine ⟨⟨['\\', d], StringEscaped⟩ :: toks2, ?_, ?_, ?_⟩
          · intro m hm
            rw [getTokensFuel_step n '\\' _ acc _ 1 hstep]
            simp only [List.drop_succ_cons, List.drop_zero, Option.toList_some]
            rw [hEq2 m hm, List.append_assoc]
            rfl
          · simp [contentsConcat_cons, hCat2, itemsSer, strItemSer]
          · have hre : (acc ++ [(⟨['\\', d], StringEscaped⟩ : Token)]) ++ toks2 =
                acc ++ ⟨['\\', d], StringEscaped⟩ :: toks2 := by simp
            rw [← hre]
            exact hNeu2
      | uesc a b e f =>
        have hprev : prevState '\\' (some t) = some (true, 0) := by
          rcases hstate with ⟨hk, hne⟩ | ⟨hk, ⟨pc, hpc, hcont⟩, _⟩
          · rw [prevState_escaped '\\' t hk hne]
            simp
          · exact prevState_srCont '\\' t pc hk hpc hcont
        have hser : itemsSer (StrItem.uesc a b e f :: k) ++ '"' :: rest =
            '\\' :: 'u' :: a :: b :: e :: f :: (itemsSer k ++ '"' :: rest) := by
          simp [itemsSer, strItemSer]
        rw [hser] at hn ⊢
        cases n with
        | zero => simp at hn
        | succ n =>
          have hstep : step '\\' ('u' :: a :: b :: e :: f :: (itemsSer k ++ '"' :: rest))
              acc.getLast? =
              some (some ⟨['\\', 'u', a, b, e, f], StringEscaped⟩, 5) := by
            rw [hlast]
            simp [step, hprev, stepInString]
          obtain ⟨toks2, hEq2, hCat2, hNeu2⟩ :=
            ih k hlenk hokk rest (acc ++ [⟨['\\', 'u', a, b, e, f], StringEscaped⟩])
              ⟨['\\', 'u', a, b, e, f], StringEscaped⟩ (List.getLast?_concat _)
              (Or.inl ⟨rfl, by simp⟩)
              n (by simp at hn ⊢; omega)
          refine ⟨⟨['\\', 'u', a, b, e, f], StringEscaped⟩ :: toks2, ?_, ?_, ?_⟩
          · intro m hm
            rw [getTokensFuel_step n '\\' _ acc _ 5 hstep]
            simp only [List.drop_succ_cons, List.drop_zero, Option.toList_some]
            rw [hEq2 m hm, List.append_assoc]
            rfl
          · simp [contentsConcat_cons, hCat2, itemsSer, strItemSer]
          · have hre : (acc ++ [(⟨['\\', 'u', a, b, e, f], StringEscaped⟩ : Token)]) ++ toks2 =
                acc ++ ⟨['\\', 'u', a, b, e, f], StringEscaped⟩ :: toks2 := by simp
            rw [← hre]
            exact hNeu2
      | plain p =>
        have hp : plainChar p := by
          have h0 := hok (StrItem.plain p) (by simp)
          simp [strItemOk] at h0
          exact ⟨h0.1, h0.2⟩
        have hprev : prevState p (some t) = some (true, 0) := by
          rcases hstate with ⟨hk, hne⟩ | ⟨_, _, habs⟩
          · rw [prevState_escaped p t hk hne]
            simp [if_neg hp.1]
          · simp [headIsEsc] at habs
        obtain ⟨hsplit, hmem, hcases, hlen2, hmem2⟩ := splitPlains_spec k
        have hplains : ∀ q ∈ (splitPlains k).1, plainChar q := by
          intro q hq
          have h0 := hok (StrItem.plain q) (by simp [hmem q hq])
          simp [strItemOk] at h0
          exact ⟨h0.1, h0.2⟩
        have hser : itemsSer (StrItem.plain p :: k) ++ '"' :: rest =
            p :: (itemsSer k ++ '"' :: rest) := by
          simp [itemsSer, strItemSer]
        rw [hser] at hn ⊢
        cases n with
        | zero => simp at hn
        | succ n =>
          rcases hcases with hnil | hesc
          · -- the rest of the body is all plain: one token through the closing quote
            have htail : itemsSer k ++ '"' :: rest = (splitPlains k).1 ++ '"' :: rest := by
              rw [hsplit, hnil]
              simp [itemsSer]
            have hrun : consumeStringRun (itemsSer k ++ '"' :: rest) =
                some ((splitPlains k).1 ++ ['"'], (splitPlains k).1.length + 1) := by
              rw [htail]
              exact consumeStringRun_plain_quote _ rest hplains
            have hstep : step p (itemsSer k ++ '"' :: rest) acc.getLast? =
                some (some ⟨p :: ((splitPlains k).1 ++ ['"']), StringRegular⟩,
                  (splitPlains k).1.length + 1) := by
              rw [hlast]
              simp [step, hprev, stepInString, hp.1, hp.2, hrun]
            have hdrop : (itemsSer k ++ '"' :: rest).drop ((splitPlains k).1.length + 1) =
                rest := by
              rw [htail]
              have : (splitPlains k).1.length + 1 = (splitPlains k).1.length + 1 := rfl
              rw [List.drop_append]
              simp
            refine ⟨[⟨p :: ((splitPlains k).1 ++ ['"']), StringRegular⟩], ?_, ?_, ?_⟩
            · intro m hm
              rw [getTokensFuel_step n p _ acc _ _ hstep]
              rw [hdrop]
              simp only [Option.toList_some]
              apply getTokensFuel_fuel_irrelevant
              · have h2 : (itemsSer k ++ '"' :: rest).length + 1 ≤ n + 1 := by
                  simpa using hn
                have h3 : rest.length ≤ (itemsSer k ++ '"' :: rest).length := by
                  simp only [List.length_append, List.length_cons]
                  omega
                omega
              · exact hm
            · have hplain2 : itemsSer (StrItem.plain p :: k) = p :: itemsSer k := by
                simp [itemsSer, strItemSer]
              rw [contentsConcat_cons, contentsConcat_nil, hplain2, hsplit, hnil]
              simp [itemsSer]
            · apply NeutralLast_concat
              refine ⟨by simp, by simp [StringRegular, StringEscaped], fun _ => ⟨?_, ?_⟩⟩
              · have : p :: ((splitPlains k).1 ++ ['"']) =
                    (p :: (splitPlains k).1) ++ ['"'] := by simp
                rw [this, List.getLast?_concat]
              · simp
          · -- the body continues with an escape: the plain run stops at the backslash
            obtain ⟨tail2, htail2⟩ := headIsEsc_ser _ hesc
            have htail : itemsSer k ++ '"' :: rest =
                (splitPlains k).1 ++ '\\' :: (tail2 ++ '"' :: rest) := by
              rw [hsplit, htail2]
              simp
            have hrun : consumeStringRun (itemsSer k ++ '"' :: rest) =
                some ((splitPlains k).1, (splitPlains k).1.length) := by
              rw [htail]
              exact consumeStringRun_plain_backslash _ _ hplains
            have hstep : step p (itemsSer k ++ '"' :: rest) acc.getLast? =
                some (some ⟨p :: (splitPlains k).1, StringRegular⟩,
                  (splitPlains k).1.length) := by
              rw [hlast]
              simp [step, hprev, stepInString, hp.1, hp.2, hrun]
            have hdrop : (itemsSer k ++ '"' :: rest).drop ((splitPlains k).1.length) =
                itemsSer (splitPlains k).2 ++ '"' :: rest := by
              conv_lhs => rw [hsplit, List.append_assoc, List.drop_left]
            -- the last character of the new plain-run token is not a quote
            obtain ⟨pc, hpc, hpccases⟩ := getLast?_cons_cases p (splitPlains k).1
            have hpcplain : pc ≠ '"' := by
              rcases hpccases with ⟨rfl, _⟩ | hmem3
              · exact hp.1
              · exact (hplains pc hmem3).1
            obtain ⟨toks2, hEq2, hCat2, hNeu2⟩ :=
              ih (splitPlains k).2 (by omega) (fun q hq => hokk q (hmem2 q hq))
                rest (acc ++ [⟨p :: (splitPlains k).1, StringRegular⟩])
                ⟨p :: (splitPlains k).1, StringRegular⟩ (List.getLast?_concat _)
                (Or.inr ⟨rfl, ⟨pc, hpc, Or.inl hpcplain⟩, hesc⟩)
                n (by
                  have h2 : (itemsSer k ++ '"' :: rest).length + 1 ≤ n + 1 := by
                    simpa using hn
                  have h3 : (itemsSer (splitPlains k).2 ++ '"' :: rest).length ≤
                      (itemsSer k ++ '"' :: rest).length := by
                    rw [hsplit]
                    simp
                  omega)
            refine ⟨⟨p :: (splitPlains k).1, StringRegular⟩ :: toks2, ?_, ?_, ?_⟩
            · intro m hm
              rw [getTokensFuel_step n p _ acc _ _ hstep]
              rw [hdrop]
              simp only [Option.toList_some]
              rw [hEq2 m hm, List.append_assoc]
              rfl
            · rw [contentsConcat_cons, hCat2]
              have hplain2 : itemsSer (StrItem.plain p :: k) = p :: itemsSer k := by
                simp [itemsSer, strItemSer]
              rw [hplain2, hsplit]
              simp
            · have hre : (acc ++ [(⟨p :: (splitPlains k).1, StringRegular⟩ : Token)]) ++ toks2 =
                  acc ++ ⟨p :: (splitPlains k).1, StringRegular⟩ :: toks2 := by simp
              rw [← hre]
              exact hNeu2

/-- Processing one skipped character. -/
theorem tokenizeSkip (c : Char) (rest : List Char) (acc : List Token)
    (hacc : NeutralLast acc) (hstep : stepFresh c rest = some (none, 0)) :
    ∀ n, (c :: rest).length ≤ n → ∀ m, rest.length ≤ m →
      getTokensFuel n (c :: rest) acc = getTokensFuel m rest acc := by
  intro n hn m hm
  cases n with
  | zero => simp at hn
  | succ n =>
    rw [getTokensFuel_step n c rest acc none 0
      (by rw [step_neutral c rest acc hacc]; exact hstep)]
    simp only [List.drop_zero, Option.toList_none, List.append_nil]
    apply getTokensFuel_fuel_irrelevant
    · simpa using hn
    · exact hm

/-- Tokenizing a full string lexeme (opening quote, body, closing quote)
from a neutral state. -/
theorem tokenizeStringLexeme (items : List StrItem)
    (hok : ∀ it ∈ items, strItemOk it = true)
    (rest : List Char) (acc : List Token) (hacc : NeutralLast acc) :
    ∀ n, (('"' :: itemsSer items ++ ['"']) ++ rest).length ≤ n →
      ∃ toks, (∀ m, rest.length ≤ m →
          getTokensFuel n (('"' :: itemsSer items ++ ['"']) ++ rest) acc =
            getTokensFuel m rest (acc ++ toks)) ∧
        contentsConcat toks = '"' :: itemsSer items ++ ['"'] ∧
        NeutralLast (acc ++ toks) := by
  intro n hn
  have hser : ('"' :: itemsSer items ++ ['"']) ++ rest =
      '"' :: (itemsSer items ++ '"' :: rest) := by simp
  rw [hser] at hn ⊢
  cases n with
  | zero => simp at hn
  | succ n =>
    obtain ⟨hsplit, hmem, hcases, hlen2, hmem2⟩ := splitPlains_spec items
    have hplains : ∀ q ∈ (splitPlains items).1, plainChar q := by
      intro q hq
      have h0 := hok (StrItem.plain q) (hmem q hq)
      simp [strItemOk] at h0
      exact ⟨h0.1, h0.2⟩
    rcases hcases with hnil | hesc
    · -- the whole body is plain: one token from the opening through the
      -- closing quote
      have htail : itemsSer items ++ '"' :: rest =
          (splitPlains items).1 ++ '"' :: rest := by
        rw [hsplit, hnil]
        simp [itemsSer]
      have hrun : consumeStringRun (itemsSer items ++ '"' :: rest) =
          some ((splitPlains items).1 ++ ['"'], (splitPlains items).1.length + 1) := by
        rw [htail]
        exact consumeStringRun_plain_quote _ rest hplains
      have hstep : step '"' (itemsSer items ++ '"' :: rest) acc.getLast? =
          some (some ⟨'"' :: ((splitPlains items).1 ++ ['"']), StringRegular⟩,
            (splitPlains items).1.length + 1) := by
        rw [step_neutral _ _ _ hacc]
        simp [stepFresh, hrun]
      have hdrop : (itemsSer items ++ '"' :: rest).drop ((splitPlains items).1.length + 1) =
          rest := by
        rw [htail, List.drop_append]
        simp
      refine ⟨[⟨'"' :: ((splitPlains items).1 ++ ['"']), StringRegular⟩], ?_, ?_, ?_⟩
      · intro m hm
        rw [getTokensFuel_step n '"' _ acc _ _ hstep, hdrop]
        simp only [Option.toList_some]
        apply getTokensFuel_fuel_irrelevant
        · have h2 : (itemsSer items ++ '"' :: rest).length + 1 ≤ n + 1 := by
            simpa using hn
          have h3 : rest.length ≤ (itemsSer items ++ '"' :: rest).length := by
            simp only [List.length_append, List.length_cons]
            omega
          omega
        · exact hm
      · rw [contentsConcat_cons, contentsConcat_nil, hsplit, hnil]
        simp [itemsSer]
      · apply NeutralLast_concat
        refine ⟨by simp, by simp [StringRegular, StringEscaped], fun _ => ⟨?_, ?_⟩⟩
        · have he : '"' :: ((splitPlains items).1 ++ ['"']) =
              ('"' :: (splitPlains items).1) ++ ['"'] := by simp
          rw [he, List.getLast?_concat]
        · simp
    · -- an escape follows the leading plain run
      obtain ⟨tail2, htail2⟩ := headIsEsc_ser _ hesc
      have htail : itemsSer items ++ '"' :: rest =
          (splitPlains items).1 ++ '\\' :: (tail2 ++ '"' :: rest) := by
        rw [hsplit, htail2]
        simp
      have hrun : consumeStringRun (itemsSer items ++ '"' :: rest) =
          some ((splitPlains items).1, (splitPlains items).1.length) := by
        rw [htail]
        exact consumeStringRun_plain_backslash _ _ hplains
      have hstep : step '"' (itemsSer items ++ '"' :: rest) acc.getLast? =
          some (some ⟨'"' :: (splitPlains items).1, StringRegular⟩,
            (splitPlains items).1.length) := by
        rw [step_neutral _ _ _ hacc]
        simp [stepFresh, hrun]
      have hdrop : (itemsSer items ++ '"' :: rest).drop ((splitPlains items).1.length) =
          itemsSer (splitPlains items).2 ++ '"' :: rest := by
        conv_lhs => rw [hsplit, List.append_assoc, List.drop_left]
      obtain ⟨pc, hpc, hpccases⟩ := getLast?_cons_cases '"' (splitPlains items).1
      have hpcok : pc ≠ '"' ∨
          ((⟨'"' :: (splitPlains items).1, StringRegular⟩ : Token)).content.length = 1 := by
        rcases hpccases with ⟨rfl, hnil2⟩ | hmem3
        · right
          simp [hnil2]
        · left
          exact (hplains pc hmem3).1
      obtain ⟨toks2, hEq2, hCat2, hNeu2⟩ :=
        tokenizeStringBody (splitPlains items).2.length (splitPlains items).2 le_rfl
          (fun q hq => hok q (hmem2 q hq)) rest
          (acc ++ [⟨'"' :: (splitPlains items).1, StringRegular⟩])
          ⟨'"' :: (splitPlains items).1, StringRegular⟩ (List.getLast?_concat _)
          (Or.inr ⟨rfl, ⟨pc, hpc, hpcok⟩, hesc⟩)
          n (by
            have h2 : (itemsSer items ++ '"' :: rest).length + 1 ≤ n + 1 := by
              simpa using hn
            have h3 : (itemsSer (splitPlains items).2 ++ '"' :: rest).length ≤
                (itemsSer items ++ '"' :: rest).length := by
              rw [hsplit]
              simp
            omega)
      refine ⟨⟨'"' :: (splitPlains items).1, StringRegular⟩ :: toks2, ?_, ?_, ?_⟩
      · intro m hm
        rw [getTokensFuel_step n '"' _ acc _ _ hstep, hdrop]
        simp only [Option.toList_some]
        rw [hEq2 m hm, List.append_assoc]
        rfl
      · rw [contentsConcat_cons, hCat2, hsplit]
        simp
      · have hre : (acc ++ [(⟨'"' :: (splitPlains items).1, StringRegular⟩ : Token)]) ++ toks2 =
            acc ++ ⟨'"' :: (splitPlains items).1, StringRegular⟩ :: toks2 := by
          simp
        rw [← hre]
        exact hNeu2

/-- A number-start character is none of the structural characters and not
a quote. -/
theorem isNumberStart_not_special (c : Char) (h : isNumberStart c = true) :
    c ≠ '{' ∧ c ≠ '}' ∧ c ≠ '[' ∧ c ≠ ']' ∧ c ≠ ':' ∧ c ≠ ',' ∧ c ≠ '"' := by
  simp only [isNumberStart, Bool.or_eq_true, beq_iff_eq, or_assoc] at h
  rcases h with rfl | rfl | rfl | rfl | rfl | rfl | rfl | rfl | rfl | rfl | rfl <;> decide

/-- A one-character structural lexeme steps to its one-character token. -/
theorem stepFresh_structural (c : Char) (rest : List Char)
    (hok : lexOk (Lexeme.structural c) = true) :
    ∃ K, stepFresh c rest = some (some ⟨[c], K⟩, 0) ∧
      K ≠ StringRegular ∧ K ≠ StringEscaped := by
  simp only [lexOk, Bool.or_eq_true, beq_iff_eq, or_assoc] at hok
  rcases hok with rfl | rfl | rfl | rfl | rfl | rfl
  · exact ⟨ObjectOpen, rfl, by decide, by decide⟩
  · exact ⟨ObjectClose, rfl, by decide, by decide⟩
  · exact ⟨ArrayOpen, rfl, by decide, by decide⟩
  · exact ⟨ArrayClose, rfl, by decide, by decide⟩
  · exact ⟨DelimiterPair, rfl, by decide, by decide⟩
  · exact ⟨DelimiterMember, rfl, by decide, by decide⟩

/-- Tokenizing one lexeme from a neutral state. -/
theorem tokenizeLexeme (lx : Lexeme) (rest : List Char) (acc : List Token)
    (hok : lexOk lx = true) (hacc : NeutralLast acc) (hfol : FollowOk lx rest) :
    ∀ n, (lexSer lx ++ rest).length ≤ n →
      ∃ toks, (∀ m, rest.length ≤ m →
          getTokensFuel n (lexSer lx ++ rest) acc = getTokensFuel m rest (acc ++ toks)) ∧
        contentsConcat toks = lexKept lx ∧ NeutralLast (acc ++ toks) := by
  intro n hn
  cases lx with
  | structural c =>
    obtain ⟨K, hstep, hK1, hK2⟩ := stepFresh_structural c rest hok
    obtain ⟨toks, h1, h2, h3⟩ :=
      tokenizeSimpleToken c rest rest ⟨[c], K⟩ 0 acc hacc hstep (by simp)
        ⟨by simp, hK2, fun hc => absurd hc hK1⟩ n (by simpa [lexSer] using hn)
    refine ⟨toks, ?_, ?_, h3⟩
    · intro m hm
      have := h1 m hm
      simpa [lexSer] using this
    · rw [h2]
      simp [lexKept, lexSer]
  | str items =>
    have hitems : ∀ it ∈ items, strItemOk it = true := by
      simpa [lexOk, List.all_eq_true] using hok
    obtain ⟨toks, h1, h2, h3⟩ :=
      tokenizeStringLexeme items hitems rest acc hacc n hn
    exact ⟨toks, h1, h2, h3⟩
  | num c cs =>
    simp only [lexOk, Bool.and_eq_true] at hok
    obtain ⟨hc, hcs⟩ := hok
    have hcs2 : ∀ d ∈ cs, validNextNumCharacter d = true := by
      simpa [List.all_eq_true] using hcs
    obtain ⟨e, tail, rfl, he⟩ := hfol rfl
    obtain ⟨hne1, hne2, hne3, hne4, hne5, hne6, hne7⟩ := isNumberStart_not_special c hc
    have hser : lexSer (Lexeme.num c cs) ++ (e :: tail) = c :: (cs ++ e :: tail) := by
      simp [lexSer]
    rw [hser] at hn ⊢
    have hrun := consumeNumberRun_valid_stop cs e tail hcs2 he
    have hstep : stepFresh c (cs ++ e :: tail) =
        some (some ⟨c :: cs, Number⟩, cs.length) := by
      simp [stepFresh, hne1, hne2, hne3, hne4, hne5, hne6, hne7, hc, hrun]
    obtain ⟨toks, h1, h2, h3⟩ :=
      tokenizeSimpleToken c (cs ++ e :: tail) (e :: tail) ⟨c :: cs, Number⟩ cs.length
        acc hacc hstep (List.drop_left _ _)
        ⟨by simp, by simp [Number, StringEscaped],
          fun hc2 => absurd hc2 (by simp [Number, StringRegular])⟩
        n hn
    refine ⟨toks, h1, ?_, h3⟩
    rw [h2]
    simp [lexKept, lexSer]
  | litTrue =>
    have hser : lexSer Lexeme.litTrue ++ rest = 't' :: ('r' :: 'u' :: 'e' :: rest) := by
      simp [lexSer]
    rw [hser] at hn ⊢
    obtain ⟨toks, h1, h2, h3⟩ :=
      tokenizeSimpleToken 't' ('r' :: 'u' :: 'e' :: rest) rest
        ⟨['t', 'r', 'u', 'e'], LiteralBoolTrue⟩ 3 acc hacc rfl rfl
        ⟨by simp, by simp [LiteralBoolTrue, StringEscaped],
          fun hc2 => absurd hc2 (by simp [LiteralBoolTrue, StringRegular])⟩
        n hn
    refine ⟨toks, h1, ?_, h3⟩
    rw [h2]
    simp [lexKept, lexSer]
  | litFalse =>
    have hser : lexSer Lexeme.litFalse ++ rest =
        'f' :: ('a' :: 'l' :: 's' :: 'e' :: rest) := by
      simp [lexSer]
    rw [hser] at hn ⊢
    obtain ⟨toks, h1, h2, h3⟩ :=
      tokenizeSimpleToken 'f' ('a' :: 'l' :: 's' :: 'e' :: rest) rest
        ⟨['f', 'a', 'l', 's', 'e'], LiteralBoolFalse⟩ 4 acc hacc rfl rfl
        ⟨by simp, by simp [LiteralBoolFalse, StringEscaped],
          fun hc2 => absurd hc2 (by simp [LiteralBoolFalse, StringRegular])⟩
        n hn
    refine ⟨toks, h1, ?_, h3⟩
    rw [h2]
    simp [lexKept, lexSer]
  | litNull =>
    have hser : lexSer Lexeme.litNull ++ rest = 'n' :: ('u' :: 'l' :: 'l' :: rest) := by
      simp [lexSer]
    rw [hser] at hn ⊢
    obtain ⟨toks, h1, h2, h3⟩ :=
      tokenizeSimpleToken 'n' ('u' :: 'l' :: 'l' :: rest) rest
        ⟨['n', 'u', 'l', 'l'], LiteralNull⟩ 3 acc hacc rfl rfl
        ⟨by simp, by simp [LiteralNull, StringEscaped],
          fun hc2 => absurd hc2 (by simp [LiteralNull, StringRegular])⟩
        n hn
    refine ⟨toks, h1, ?_, h3⟩
    rw [h2]
    simp [lexKept, lexSer]
  | skip c =>
    simp only [lexOk, Bool.and_eq_true] at hok
    obtain ⟨⟨⟨⟨⟨⟨⟨⟨⟨⟨h1, h2⟩, h3⟩, h4⟩, h5⟩, h6⟩, h7⟩, h8⟩, h9⟩, h10⟩, h11⟩ := hok
    have hstep : stepFresh c rest = some (none, 0) := by
      simp only [Bool.not_eq_true', beq_eq_false_iff_ne, ne_eq] at h1 h2 h3 h4 h5 h6 h7 h8 h9 h10 h11
      simp [stepFresh, h1, h2, h3, h4, h5, h6, h7, h8, h9, h10, h11]
    refine ⟨[], ?_, rfl, by simpa using hacc⟩
    intro m hm
    have heq := tokenizeSkip c rest acc hacc hstep n (by simpa [lexSer] using hn) m hm
    simpa [lexSer] using heq

theorem lexSer_ne_nil (lx : Lexeme) : lexSer lx ≠ [] := by
  cases lx <;> simp [lexSer]

/-- Tokenizing a whole well-formed lexeme list. -/
theorem tokenizeLexemeList :
    ∀ (lxs : List Lexeme) (acc : List Token),
      lxs.all lexOk = true → SepOk lxs = true → NeutralLast acc →
      ∀ n, (lexListSer lxs).length ≤ n →
        ∃ toks, getTokensFuel n (lexListSer lxs) acc = some (acc ++ toks) ∧
          contentsConcat toks = keptSer lxs := by
  intro lxs
  induction lxs with
  | nil =>
    intro acc _ _ _ n _
    exact ⟨[], by simp [lexListSer, getTokensFuel], by simp [contentsConcat, keptSer]⟩
  | cons lx lxs ih =>
    intro acc hall hsep hacc n hn
    have hok : lexOk lx = true := by
      simp [List.all_eq_true] at hall
      exact hall.1
    have hall2 : lxs.all lexOk = true := by
      simp only [List.all_cons, Bool.and_eq_true] at hall
      exact hall.2
    have hsep2 : SepOk lxs = true := by
      cases lxs with
      | nil => rfl
      | cons lx2 lxs2 =>
        simp only [SepOk, Bool.and_eq_true] at hsep
        exact hsep.2
    have hfol : FollowOk lx (lexListSer lxs) := by
      intro hnum
      cases lxs with
      | nil => simp [SepOk, hnum] at hsep
      | cons lx2 lxs2 =>
        simp only [SepOk, Bool.and_eq_true] at hsep
        have hstop : firstCharStopsNum lx2 = true := by
          rcases (Bool.or_eq_true _ _).mp hsep.1 with h | h
          · rw [hnum] at h
            simp at h
          · exact h
        cases hser : lexSer lx2 with
        | nil => exact absurd hser (lexSer_ne_nil lx2)
        | cons e tail =>
          refine ⟨e, tail ++ lexListSer lxs2, ?_, ?_⟩
          · simp [lexListSer, hser]
          · rw [firstCharStopsNum, hser] at hstop
            simpa using hstop
    have hlser : lexListSer (lx :: lxs) = lexSer lx ++ lexListSer lxs := by
      simp [lexListSer]
    rw [hlser] at hn ⊢
    obtain ⟨toks1, h1, h2, h3⟩ := tokenizeLexeme lx (lexListSer lxs) acc hok hacc hfol n hn
    have hlen2 : (lexListSer lxs).length ≤ n := by
      rw [List.length_append] at hn
      omega
    obtain ⟨toks2, h4, h5⟩ := ih (acc ++ toks1) hall2 hsep2 h3 n hlen2
    refine ⟨toks1 ++ toks2, ?_, ?_⟩
    · rw [h1 n hlen2, h4, List.append_assoc]
    · rw [contentsConcat_append, h2, h5]
      simp [keptSer]

/- Shape of every StringEscaped token a single step can emit: content
starts with a backslash and has length 6 for a unicode escape (second
character `u`) or length 2 otherwise. -/

theorem stepFresh_not_escaped (c : Char) (rest : List Char) (t : Token) (extra : Nat)
    (h : stepFresh c rest = some (some t, extra)) : t.kind ≠ StringEscaped := by
  by_cases h1 : c = '{'
  · subst h1
    simp [stepFresh] at h
    rw [← h.1]
    decide
  by_cases h2 : c = '}'
  · subst h2
    simp [stepFresh] at h
    rw [← h.1]
    decide
  by_cases h3 : c = '['
  · subst h3
    simp [stepFresh] at h
    rw [← h.1]
    decide
  by_cases h4 : c = ']'
  · subst h4
    simp [stepFresh] at h
    rw [← h.1]
    decide
  by_cases h5 : c = ':'
  · subst h5
    simp [stepFresh] at h
    rw [← h.1]
    decide
  by_cases h6 : c = ','
  · subst h6
    simp [stepFresh] at h
    rw [← h.1]
    decide
  by_cases h7 : c = '"'
  · subst h7
    simp [stepFresh] at h
    cases hr : consumeStringRun rest with
    | none => rw [hr] at h; simp at h
    | some v =>
      obtain ⟨cs2, n2⟩ := v
      rw [hr] at h
      simp at h
      rw [← h.1]
      simp [StringRegular, StringEscaped]
  by_cases h8 : isNumberStart c = true
  · simp [stepFresh, h1, h2, h3, h4, h5, h6, h7, h8] at h
    cases hr : consumeNumberRun rest with
    | none => rw [hr] at h; simp at h
    | some v =>
      obtain ⟨cs2, n2⟩ := v
      rw [hr] at h
      simp at h
      rw [← h.1]
      simp [Number, StringEscaped]
  by_cases h9 : c = 't'
  · subst h9
    simp [stepFresh, h8] at h
    rw [← h.1]
    decide
  by_cases h10 : c = 'f'
  · subst h10
    simp [stepFresh, h8] at h
    rw [← h.1]
    decide
  by_cases h11 : c = 'n'
  · subst h11
    simp [stepFresh, h8] at h
    rw [← h.1]
    decide
  simp [stepFresh, h1, h2, h3, h4, h5, h6, h7, h8, h9, h10, h11] at h

theorem stepInString_escaped_shape (c : Char) (rest : List Char) (kind0 : Nat)
    (t : Token) (extra : Nat)
    (h : stepInString c rest kind0 = some (some t, extra)) (hk : t.kind = StringEscaped) :
    t.content.head? = some '\\' ∧
    (t.content[1]? = some 'u' → t.content.length = 6) ∧
    (t.content[1]? ≠ some 'u' → t.content.length = 2) := by
  by_cases hq : c = '"'
  · subst hq
    by_cases hclose : kind0 = StringClose
    · subst hclose
      simp [stepInString] at h
      rw [← h.1] at hk
      simp [StringClose, StringEscaped] at hk
    · simp [stepInString, hclose] at h
      cases hr : consumeStringRun rest with
      | none => rw [hr] at h; simp at h
      | some v =>
        obtain ⟨cs2, n2⟩ := v
        rw [hr] at h
        simp at h
        rw [← h.1] at hk
        simp [StringRegular, StringEscaped] at hk
  by_cases hbs : c = '\\'
  · subst hbs
    cases rest with
    | nil => simp [stepInString] at h
    | cons d rest2 =>
      by_cases hu : d = 'u'
      · subst hu
        simp [stepInString] at h
        obtain ⟨hlen2, ht, -⟩ := h
        rw [← ht]
        refine ⟨by simp, fun _ => ?_, fun hne2 => absurd ?_ hne2⟩
        · simp [List.length_take]
          omega
        · simp
      · simp [stepInString, hu] at h
        rw [← h.1]
        refine ⟨by simp, fun himp => ?_, fun _ => by simp⟩
        exfalso
        apply hu
        simpa using himp
  · simp [stepInString, hq, hbs] at h
    cases hr : consumeStringRun rest with
    | none => rw [hr] at h; simp at h
    | some v =>
      obtain ⟨cs2, n2⟩ := v
      rw [hr] at h
      simp at h
      rw [← h.1] at hk
      simp [StringRegular, StringEscaped] at hk


theorem step_escaped_shape (c : Char) (rest : List Char) (prev : Option Token)
    (t : Token) (extra : Nat)
    (h : step c rest prev = some (some t, extra)) (hk : t.kind = StringEscaped) :
    t.content.head? = some '\\' ∧
    (t.content[1]? = some 'u' → t.content.length = 6) ∧
    (t.content[1]? ≠ some 'u' → t.content.length = 2) := by
  unfold step at h
  cases hps : prevState c prev with
  | none =>
    rw [hps] at h
    simp at h
  | some q =>
    obtain ⟨isStr, kind0⟩ := q
    rw [hps] at h
    cases isStr with
    | true =>
      simp only [if_true] at h
      exact stepInString_escaped_shape c rest kind0 t extra h hk
    | false =>
      simp only [Bool.false_eq_true, if_false] at h
      exact absurd hk (stepFresh_not_escaped c rest t extra h)

/-- Any property of tokens preserved by `step` holds for every token the
tokenizer returns. -/
theorem getTokensFuel_inv (P : Token → Prop)
    (hstep : ∀ c rest prev t extra, step c rest prev = some (some t, extra) → P t) :
    ∀ (n : Nat) (s : List Char) (acc l : List Token),
      (∀ t ∈ acc, P t) → getTokensFuel n s acc = some l → ∀ t ∈ l, P t := by
  intro n
  induction n with
  | zero =>
    intro s acc l hacc h
    cases s with
    | nil =>
      obtain rfl : acc = l := Option.some.inj h
      exact hacc
    | cons c rest => simp [getTokensFuel] at h
  | succ n ih =>
    intro s acc l hacc h
    cases s with
    | nil =>
      obtain rfl : acc = l := Option.some.inj h
      exact hacc
    | cons c rest =>
      simp only [getTokensFuel] at h
      cases hs : step c rest acc.getLast? with
      | none => rw [hs] at h; simp at h
      | some r =>
        obtain ⟨emitted, extra⟩ := r
        rw [hs] at h
        refine ih _ _ _ ?_ h
        intro t ht
        rcases List.mem_append.mp ht with ht | ht
        · exact hacc t ht
        · cases emitted with
          | none => simp at ht
          | some tok =>
            simp at ht
            subst ht
            exact hstep c rest acc.getLast? _ extra hs

/-- Bridge from the lexeme-list lemma to `getTokens`. -/
theorem getTokens_lexemes (lxs : List Lexeme)
    (hall : lxs.all lexOk = true) (hsep : SepOk lxs = true) :
    ∃ toks, getTokens (lexListSer lxs) = some toks ∧
      contentsConcat toks = keptSer lxs := by
  obtain ⟨toks, h1, h2⟩ := tokenizeLexemeList lxs [] hall hsep NeutralLast_nil
    (lexListSer lxs).length le_rfl
  refine ⟨toks, ?_, h2⟩
  rw [getTokens, h1]
  simp

/- Unterminated runs at the end of the input: wherever the input ends
while a number run, a plain string run, or a backslash escape is still
being consumed, the tokenizer reads past the end of the input.  These
lemmas hold for any fuel: the unterminated run fails before the input can
be exhausted. -/

/-- C1 counterexample: tokenize on `"ab"` does not return the claimed two
tokens [StringRegular(quote), StringRegular(ab-quote)], and tokenize on
`""` does not return two StringRegular tokens each holding one quote. -/
theorem c1_counterexample :
    getTokens "\"ab\"".data ≠
      some [⟨['"'], StringRegular⟩, ⟨['a', 'b', '"'], StringRegular⟩] ∧
    getTokens "\"\"".data ≠
      some [⟨['"'], StringRegular⟩, ⟨['"'], StringRegular⟩] := by
  constructor <;> decide

/-- C1 amended: when a string literal contains no escape sequence, the
opening quote is not its own token: the opening quote, the content and the
closing quote are absorbed into one single StringRegular token.  In
particular `"ab"` tokenizes to the one token StringRegular(`"ab"`) and
`""` to the one token StringRegular(`""`).  A lone-quote StringRegular
open token arises only when a backslash immediately follows the opening
quote, as in `"\n"`. -/
theorem c1_single_token_strings :
    (∀ ps : List Char, (∀ p ∈ ps, p ≠ '"' ∧ p ≠ '\\') →
      getTokens ('"' :: (ps ++ ['"'])) =
        some [⟨'"' :: (ps ++ ['"']), StringRegular⟩]) ∧
    getTokens "\"ab\"".data = some [⟨['"', 'a', 'b', '"'], StringRegular⟩] ∧
    getTokens "\"\"".data = some [⟨['"', '"'], StringRegular⟩] ∧
    getTokens "\"\\n\"".data =
      some [⟨['"'], StringRegular⟩, ⟨['\\', 'n'], StringEscaped⟩,
        ⟨['"'], StringClose⟩] := by
  refine ⟨?_, by decide, by decide, by decide⟩
  intro ps hps
  have hrun := consumeStringRun_plain_quote ps [] hps
  have hstep : step '"' (ps ++ ['"']) ([] : List Token).getLast? =
      some (some ⟨'"' :: (ps ++ ['"']), StringRegular⟩, ps.length + 1) := by
    rw [step_neutral _ _ _ NeutralLast_nil]
    simp [stepFresh, hrun]
  show getTokensFuel ('"' :: (ps ++ ['"'])).length ('"' :: (ps ++ ['"'])) [] = _
  rw [show ('"' :: (ps ++ ['"'])).length = ps.length + 1 + 1 from by simp]
  rw [getTokensFuel_step (ps.length + 1) '"' (ps ++ ['"']) [] _ _ hstep]
  rw [show (ps ++ ['"']).drop (ps.length + 1) = [] from by rw [List.drop_append]; rfl]
  rfl

/-- C1 witness. -/
theorem c1_witness :
    getTokens ('"' :: (['x', 'y'] ++ ['"'])) =
      some [⟨'"' :: (['x', 'y'] ++ ['"']), StringRegular⟩] :=
  c1_single_token_strings.1 ['x', 'y'] (by decide)

/-- C2 counterexample: tokenizing the round-trip input yields thirteen
tokens, not the claimed fifteen: each string literal is one StringRegular
token, not two. -/
theorem c2_counterexample :
    (getTokens "\x7b\"a\":1,\"b\":[true,null]\x7d".data).map (List.map Token.kind) ≠
      some [ObjectOpen, StringRegular, StringRegular, DelimiterPair, Number,
        DelimiterMember, StringRegular, StringRegular, DelimiterPair, ArrayOpen,
        LiteralBoolTrue, DelimiterMember, LiteralNull, ArrayClose, ObjectClose] := by
  decide

/-- C2 amended: tokenize on the round-trip input produces exactly thirteen
tokens whose kinds, in order, are ObjectOpen, StringRegular, DelimiterPair,
Number, DelimiterMember, StringRegular, DelimiterPair, ArrayOpen,
LiteralBoolTrue, DelimiterMember, LiteralNull, ArrayClose, ObjectClose. -/
theorem c2_roundtrip_kinds :
    getTokens "\x7b\"a\":1,\"b\":[true,null]\x7d".data =
      some [⟨['{'], ObjectOpen⟩, ⟨['"', 'a', '"'], StringRegular⟩,
        ⟨[':'], DelimiterPair⟩, ⟨['1'], Number⟩, ⟨[','], DelimiterMember⟩,
        ⟨['"', 'b', '"'], StringRegular⟩, ⟨[':'], DelimiterPair⟩,
        ⟨['['], ArrayOpen⟩, ⟨['t', 'r', 'u', 'e'], LiteralBoolTrue⟩,
        ⟨[','], DelimiterMember⟩, ⟨['n', 'u', 'l', 'l'], LiteralNull⟩,
        ⟨[']'], ArrayClose⟩, ⟨['}'], ObjectClose⟩] ∧
    (getTokens "\x7b\"a\":1,\"b\":[true,null]\x7d".data).map (List.map Token.kind) =
      some [ObjectOpen, StringRegular, DelimiterPair, Number, DelimiterMember,
        StringRegular, DelimiterPair, ArrayOpen, LiteralBoolTrue, DelimiterMember,
        LiteralNull, ArrayClose, ObjectClose] := by
  constructor <;> decide

/-- C3: on the exact eight-character input `-12.5e+3` the number loop
reads past the end of the input (modelled as `none`) instead of returning
the single Number token the claim (and the spec) promise; with any
non-number character appended, a single Number token `-12.5e+3` results. -/
theorem c3_bare_number_out_of_bounds :
    getTokens "-12.5e+3".data = none ∧
    getTokens "-12.5e+3 ".data = some [⟨"-12.5e+3".data, Number⟩] := by
  constructor <;> decide

/-- C4 counterexample: on the one-character input consisting of a lone
quote, tokenize reads out of bounds (modelled as `none`) instead of
completing. -/
theorem c4_counterexample : getTokens ['"'] = none := by decide

/-- C4 amended: tokenize completes and returns a token sequence on every
input that decomposes into well-formed lexemes in which no number run can
reach the end of the input; it is not total: malformed input such as a
lone quote makes it read out of bounds. -/
theorem c4_completes_on_wellformed :
    ∀ lxs : List Lexeme, lxs.all lexOk = true → SepOk lxs = true →
      ∃ toks, getTokens (lexListSer lxs) = some toks := by
  intro lxs h1 h2
  obtain ⟨toks, h, -⟩ := getTokens_lexemes lxs h1 h2
  exact ⟨toks, h⟩

/-- C4 witness. -/
theorem c4_witness :
    ∃ toks, getTokens (lexListSer
      [Lexeme.structural '{', Lexeme.skip ' ', Lexeme.structural '}']) = some toks :=
  c4_completes_on_wellformed
    [Lexeme.structural '{', Lexeme.skip ' ', Lexeme.structural '}']
    (by decide) (by decide)

/-- C5 counterexample: rendering the two tokens of `\x7b\x7d` does not put
a single newline between the styled braces: the open brace emits a newline
after itself and the close brace another newline before itself. -/
theorem c5_counterexample :
    getTokens "\x7b\x7d".data = some [⟨['{'], ObjectOpen⟩, ⟨['}'], ObjectClose⟩] ∧
    printTokens [⟨['{'], ObjectOpen⟩, ⟨['}'], ObjectClose⟩] ≠
      "<span style=\"color:#D75F5F\">\x7b</span>\n<span style=\"color:#D75F5F\">\x7d</span>" := by
  constructor <;> decide

/-- C5 amended: tokenizing `\x7b\x7d` yields the kind sequence
[ObjectOpen, ObjectClose]; rendering those two tokens yields the styled
open brace, a newline, then another newline plus a zero-tab indent before
the styled close brace (two newline characters in total); and in general
every ObjectClose/ArrayClose token is preceded by a newline plus an indent
of `max (indentLevel - 1) 0` tabs computed before indentLevel is
decremented. -/
theorem c5_close_indent :
    (getTokens "\x7b\x7d".data).map (List.map Token.kind) =
      some [ObjectOpen, ObjectClose] ∧
    printTokens [⟨['{'], ObjectOpen⟩, ⟨['}'], ObjectClose⟩] =
      "<span style=\"color:#D75F5F\">\x7b</span>\n\n<span style=\"color:#D75F5F\">\x7d</span>" ∧
    ∀ (t : Token) (level : Int) (ind : Bool),
      t.kind = ObjectClose ∨ t.kind = ArrayClose →
      addWhiteSpace t level ind =
        (("\n" ++ String.mk (List.replicate (level - 1).toNat '\t'), ""),
          (level - 1, false)) := by
  refine ⟨by decide, by decide, ?_⟩
  intro t level ind h
  rcases h with h | h <;>
    simp [addWhiteSpace, h, ObjectOpen, ObjectClose, ArrayOpen, ArrayClose,
      DelimiterPair, DelimiterMember]

/-- C5 witness. -/
theorem c5_witness :
    addWhiteSpace ⟨['}'], ObjectClose⟩ 2 true =
      (("\n" ++ String.mk (List.replicate ((2 : Int) - 1).toNat '\t'), ""),
        ((2 : Int) - 1, false)) :=
  c5_close_indent.2.2 ⟨['}'], ObjectClose⟩ 2 true (Or.inl rfl)

/-- C6 counterexample: the input `1` is a well-formed (bare number) JSON
document, yet tokenize returns no token sequence at all (out-of-bounds
read), so concatenating "the tokens returned" is impossible on it. -/
theorem c6_counterexample :
    lexOk (Lexeme.num '1' []) = true ∧
    lexListSer [Lexeme.num '1' []] = ['1'] ∧
    getTokens ['1'] = none := by
  refine ⟨by decide, by decide, by decide⟩

/-- C6 amended: for every input that decomposes into well-formed JSON
lexemes (structural characters, strings, numbers, literals, and skipped
whitespace / non-token characters) in which no number run reaches the end
of the input, tokenize succeeds and concatenating the token contents in
order equals the input with the skipped characters removed. -/
theorem c6_roundtrip :
    ∀ lxs : List Lexeme, lxs.all lexOk = true → SepOk lxs = true →
      ∃ toks, getTokens (lexListSer lxs) = some toks ∧
        contentsConcat toks = keptSer lxs :=
  fun lxs h1 h2 => getTokens_lexemes lxs h1 h2

/-- C6 witness. -/
theorem c6_witness :
    ∃ toks,
      getTokens (lexListSer [Lexeme.skip ' ', Lexeme.structural '{',
        Lexeme.str [StrItem.plain 'a'], Lexeme.structural ':', Lexeme.skip ' ',
        Lexeme.num '1' ['2'], Lexeme.skip '\n', Lexeme.structural ',',
        Lexeme.str [StrItem.plain 'b', StrItem.esc 'n',
          StrItem.uesc '0' '0' '4' '1'],
        Lexeme.structural ':', Lexeme.structural '[', Lexeme.litTrue,
        Lexeme.structural ',', Lexeme.litFalse, Lexeme.structural ',',
        Lexeme.litNull, Lexeme.structural ']', Lexeme.structural '}']) = some toks ∧
      contentsConcat toks = keptSer [Lexeme.skip ' ', Lexeme.structural '{',
        Lexeme.str [StrItem.plain 'a'], Lexeme.structural ':', Lexeme.skip ' ',
        Lexeme.num '1' ['2'], Lexeme.skip '\n', Lexeme.structural ',',
        Lexeme.str [StrItem.plain 'b', StrItem.esc 'n',
          StrItem.uesc '0' '0' '4' '1'],
        Lexeme.structural ':', Lexeme.structural '[', Lexeme.litTrue,
        Lexeme.structural ',', Lexeme.litFalse, Lexeme.structural ',',
        Lexeme.litNull, Lexeme.structural ']', Lexeme.structural '}'] :=
  c6_roundtrip _ (by decide) (by decide)

/-- C7: tokenize on `"\u0041"` yields exactly [StringRegular(quote),
StringEscaped(backslash-u0041), StringClose(quote)]; and every
StringEscaped token in any tokenizer output starts with a backslash and
has length 6 when its second character is `u` and length 2 otherwise. -/
theorem c7_escape_tokens :
    getTokens "\"\\u0041\"".data =
      some [⟨['"'], StringRegular⟩,
        ⟨['\\', 'u', '0', '0', '4', '1'], StringEscaped⟩,
        ⟨['"'], StringClose⟩] ∧
    ∀ (s : List Char) (l : List Token), getTokens s = some l →
      ∀ t ∈ l, t.kind = StringEscaped →
        t.content.head? = some '\\' ∧
        (t.content[1]? = some 'u' → t.content.length = 6) ∧
        (t.content[1]? ≠ some 'u' → t.content.length = 2) := by
  constructor
  · decide
  · intro s l h t ht hk
    rw [getTokens] at h
    exact getTokensFuel_inv
      (fun t2 => t2.kind = StringEscaped →
        t2.content.head? = some '\\' ∧
        (t2.content[1]? = some 'u' → t2.content.length = 6) ∧
        (t2.content[1]? ≠ some 'u' → t2.content.length = 2))
      (fun c rest prev t2 extra hs hk2 => step_escaped_shape c rest prev t2 extra hs hk2)
      s.length s [] l (by simp) h t ht hk

/-- C7 witness. -/
theorem c7_witness :
    ((⟨['\\', 'u', '0', '0', '4', '1'], StringEscaped⟩ : Token)).content.head? =
        some '\\' ∧
    (((⟨['\\', 'u', '0', '0', '4', '1'], StringEscaped⟩ : Token)).content[1]? =
        some 'u' →
      ((⟨['\\', 'u', '0', '0', '4', '1'], StringEscaped⟩ : Token)).content.length = 6) ∧
    (((⟨['\\', 'u', '0', '0', '4', '1'], StringEscaped⟩ : Token)).content[1]? ≠
        some 'u' →
      ((⟨['\\', 'u', '0', '0', '4', '1'], StringEscaped⟩ : Token)).content.length = 2) :=
  c7_escape_tokens.2 "\"\\u0041\"".data
    [⟨['"'], StringRegular⟩, ⟨['\\', 'u', '0', '0', '4', '1'], StringEscaped⟩,
      ⟨['"'], StringClose⟩]
    (by decide) ⟨['\\', 'u', '0', '0', '4', '1'], StringEscaped⟩ (by decide) rfl

/-- C8: escaping is idempotent on content with none of the five special
characters: escaping the result of escaping such content changes
nothing. -/
theorem c8_escape_idempotent :
    ∀ (kind : Nat) (s : List Char),
      (∀ ch ∈ s, ch ≠ '<' ∧ ch ≠ '>' ∧ ch ≠ '&' ∧ ch ≠ '"' ∧ ch ≠ aposChar) →
      escapeString ⟨(escapeString ⟨s, kind⟩).data, kind⟩ = escapeString ⟨s, kind⟩ := by
  intro kind s h
  have hid : ∀ s2 : List Char,
      (∀ ch ∈ s2, ch ≠ '<' ∧ ch ≠ '>' ∧ ch ≠ '&' ∧ ch ≠ '"' ∧ ch ≠ aposChar) →
      escList s2 = s2 := by
    intro s2
    induction s2 with
    | nil => intro _; rfl
    | cons ch cs ih =>
      intro hs2
      obtain ⟨h1, h2, h3, h4, h5⟩ := hs2 ch (by simp)
      have ih2 := ih (fun q hq => hs2 q (by simp [hq]))
      simp [escList, escChar, h1, h2, h3, h4, h5, ih2]
  show String.mk (escList (String.mk (escList s)).data) = String.mk (escList s)
  rw [show (String.mk (escList s)).data = escList s from rfl, hid s h, hid s h]

/-- C8 witness. -/
theorem c8_witness :
    escapeString ⟨(escapeString ⟨['a', 'b', 'c'], StringRegular⟩).data,
      StringRegular⟩ = escapeString ⟨['a', 'b', 'c'], StringRegular⟩ :=
  c8_escape_idempotent StringRegular ['a', 'b', 'c'] (by decide)

/-- C10: the output of escapeString never contains `<`, `>`, `"` or an
apostrophe; it may still contain `&`, introduced by the entities
themselves. -/
theorem c10_no_specials_in_output :
    (∀ (t : Token) (ch : Char), ch ∈ (escapeString t).data →
      ch ≠ '<' ∧ ch ≠ '>' ∧ ch ≠ '"' ∧ ch ≠ aposChar) ∧
    ∃ t : Token, '&' ∈ (escapeString t).data := by
  constructor
  · have main : ∀ (cs : List Char) (ch : Char), ch ∈ escList cs →
        ch ≠ '<' ∧ ch ≠ '>' ∧ ch ≠ '"' ∧ ch ≠ aposChar := by
      intro cs
      induction cs with
      | nil =>
        intro ch hch
        simp [escList] at hch
      | cons c cs2 ih =>
        intro ch hch
        simp only [escList] at hch
        rcases List.mem_append.mp hch with hch | hch
        · by_cases e1 : c = '<'
          · subst e1
            exact (by decide :
              ∀ x ∈ escChar '<', x ≠ '<' ∧ x ≠ '>' ∧ x ≠ '"' ∧ x ≠ aposChar) ch hch
          by_cases e2 : c = '>'
          · subst e2
            exact (by decide :
              ∀ x ∈ escChar '>', x ≠ '<' ∧ x ≠ '>' ∧ x ≠ '"' ∧ x ≠ aposChar) ch hch
          by_cases e3 : c = '&'
          · subst e3
            exact (by decide :
              ∀ x ∈ escChar '&', x ≠ '<' ∧ x ≠ '>' ∧ x ≠ '"' ∧ x ≠ aposChar) ch hch
          by_cases e4 : c = '"'
          · subst e4
            exact (by decide :
              ∀ x ∈ escChar '"', x ≠ '<' ∧ x ≠ '>' ∧ x ≠ '"' ∧ x ≠ aposChar) ch hch
          by_cases e5 : c = aposChar
          · subst e5
            exact (by decide :
              ∀ x ∈ escChar aposChar, x ≠ '<' ∧ x ≠ '>' ∧ x ≠ '"' ∧ x ≠ aposChar) ch hch
          · simp [escChar, e1, e2, e3, e4, e5] at hch
            subst hch
            exact ⟨e1, e2, e4, e5⟩
        · exact ih ch hch
    intro t ch hch
    exact main t.content ch hch
  · exact ⟨⟨['<'], StringRegular⟩, by decide⟩

/-- C10 witness. -/
theorem c10_witness :
    ('a' : Char) ≠ '<' ∧ ('a' : Char) ≠ '>' ∧ ('a' : Char) ≠ '"' ∧
      ('a' : Char) ≠ aposChar :=
  c10_no_specials_in_output.1 ⟨['a'], StringRegular⟩ 'a' (by decide)

end JPP
